import Mathlib

/-!
Verification of the BrownEconomics scheduler worker (`scheduler_worker.js`).

The worker performs an exhaustive backtracking search that assigns each
faculty member exactly one lecture slot, minimising the number of
assignments whose time slot misses the faculty member's preferred set.
This file embeds the worker's data model and operations (shallowly, as
pure functions over an explicit search state that also logs the messages
posted with `self.postMessage`) and proves the specification claims.

Faculty members and time slots are opaque identifiers, modelled as
`String`; lecture ids are modelled as `Nat`.  JS `Map`s whose only reads
are `get`/`has` with an `|| new Set()` default are modelled as total
functions with default `[]`; the `schedule` map, whose entry list is
serialised into messages, is modelled as an insertion-ordered association
list with JS `Map` set/delete semantics.
-/

/-- A lecture slot as in the source data: `{ id, timeSlot }`. -/
structure LectureSlot where
  id : Nat
  timeSlot : String
deriving DecidableEq

/-- A value of the `schedule` map: `{ lecture: lecture, isHappy: isHappy }`. -/
structure ScheduleEntry where
  lecture : LectureSlot
  isHappy : Bool
deriving DecidableEq

/-- Messages posted by the worker via `self.postMessage`. -/
inductive Msg where
  | solutionUpdate (schedule : List (String × ScheduleEntry)) (score : Nat)
  | progressUpdate (facultyIndex : Nat) (facultyName : String) (combinations : Nat)
  | complete (finalCombinations : Nat) (finalScore : Option Int)
  | error (message : String)
deriving DecidableEq

/-- The worker's mutable search state: the closure variables `schedule`,
`assignedLectureSlots`, `facultyTimeSlotMap` of `solveFullSearchInWorker`,
the fields of `progressState`, and the log of messages posted so far.
`bestScore : Option Int` models a JS number that may be `undefined`
(`none`); all numeric comparisons against `undefined` are false in JS. -/
structure SearchState where
  schedule : List (String × ScheduleEntry)
  assignedLectureSlots : List Nat
  facultyTimeSlotMap : String → List String
  facultyIndex : Nat
  combinations : Nat
  bestScore : Option Int
  msgs : List Msg

/-- JS `Map.prototype.set`: overwrite in place if the key is present
(keeping its position), otherwise append. -/
def mapSet (m : List (String × ScheduleEntry)) (k : String) (v : ScheduleEntry) :
    List (String × ScheduleEntry) :=
  if m.any (fun p => p.1 == k) then
    m.map (fun p => if p.1 == k then (k, v) else p)
  else m ++ [(k, v)]

/-- JS `Map.prototype.delete`: drop the entry with the given key. -/
def mapDelete (m : List (String × ScheduleEntry)) (k : String) :
    List (String × ScheduleEntry) :=
  m.filter (fun p => p.1 != k)

/-- Pointwise update of a function-modelled map (`Map.prototype.set` on a
map that is only ever read back through `get` with a default). -/
def updF (g : String → List String) (k : String) (v : List String) :
    String → List String :=
  fun x => if x = k then v else g x

/-- JS `currentUnhappy >= progressState.bestScore`: comparison of a number
with a possibly-`undefined` bound (`undefined` compares false). -/
def geU (cu : Nat) (b : Option Int) : Bool :=
  match b with
  | none => false
  | some v => decide ((cu : Int) ≥ v)

/-- The `possible` array built in `solveForFaculty` (lines 77–83): lectures
whose id is unassigned and whose time slot is not yet used by this faculty
member, tagged with `isHappy = preferredSlots.has(l.timeSlot)`. -/
structure Candidate where
  lecture : LectureSlot
  isHappy : Bool
deriving DecidableEq

def possibleCandidates (lects : List LectureSlot) (prefs : String → List String)
    (assigned : List Nat) (times : List String) (f : String) : List Candidate :=
  (lects.filter (fun l => !(assigned.contains l.id) && !(times.contains l.timeSlot))).map
    (fun l => ⟨l, (prefs f).contains l.timeSlot⟩)

/-- `possible.sort((a, b) => b.isHappy - a.isHappy)`: a stable sort that
puts the `isHappy` candidates first, i.e. a stable partition. -/
def sortPossible (cs : List Candidate) : List Candidate :=
  cs.filter (fun c => c.isHappy) ++ cs.filter (fun c => !c.isHappy)

/-- The recursive helper `solveForFaculty(facultyIndex, currentUnhappy)`.
The faculty list suffix still to be processed stands for `facultyIndex`
(`rest = allFaculty.drop facultyIndex`, `idx = facultyIndex`); the
remaining parameters are the closure/state variables.  Order of effects
follows the source: pruning check, `progressState.facultyIndex` update,
base-case recording and `solutionUpdate` post, periodic `progressUpdate`
post, candidate generation and sorting, then the extension loop with
tentative add, recursion, and backtrack. -/
def solveForFaculty (lects : List LectureSlot) (prefs : String → List String) :
    List String → Nat → Nat → SearchState → SearchState
  | [], idx, cu, st =>
    if geU cu st.bestScore then st
    else
      let st0 := { st with facultyIndex := idx }
      { st0 with bestScore := some (cu : Int),
                 msgs := st0.msgs ++ [Msg.solutionUpdate st0.schedule cu] }
  | f :: rest', idx, cu, st =>
    if geU cu st.bestScore then st
    else
      let st0 := { st with facultyIndex := idx }
      let st1 :=
        if st0.combinations % 1000 == 0 then
          { st0 with msgs := st0.msgs ++ [Msg.progressUpdate idx f st0.combinations] }
        else st0
      let possible := sortPossible (possibleCandidates lects prefs
        st1.assignedLectureSlots (st1.facultyTimeSlotMap f) f)
      possible.foldl
        (fun acc c =>
          let newUnhappy := cu + (if c.isHappy then 0 else 1)
          let st2 : SearchState :=
            { acc with
              combinations := acc.combinations + 1,
              schedule := mapSet acc.schedule f ⟨c.lecture, c.isHappy⟩,
              assignedLectureSlots := acc.assignedLectureSlots ++ [c.lecture.id],
              facultyTimeSlotMap := updF acc.facultyTimeSlotMap f
                (acc.facultyTimeSlotMap f ++ [c.lecture.timeSlot]) }
          let st3 := solveForFaculty lects prefs rest' (idx + 1) newUnhappy st2
          { st3 with
            schedule := mapDelete st3.schedule f,
            assignedLectureSlots := st3.assignedLectureSlots.erase c.lecture.id,
            facultyTimeSlotMap := updF st3.facultyTimeSlotMap f
              ((st3.facultyTimeSlotMap f).erase c.lecture.timeSlot) })
        st1

/-- One step of the extension loop, named for reasoning; definitionally the
lambda folded in the cons case of `solveForFaculty`. -/
def stepCand (lects : List LectureSlot) (prefs : String → List String)
    (rest' : List String) (idx : Nat) (f : String) (cu : Nat)
    (acc : SearchState) (c : Candidate) : SearchState :=
  let newUnhappy := cu + (if c.isHappy then 0 else 1)
  let st2 : SearchState :=
    { acc with
      combinations := acc.combinations + 1,
      schedule := mapSet acc.schedule f ⟨c.lecture, c.isHappy⟩,
      assignedLectureSlots := acc.assignedLectureSlots ++ [c.lecture.id],
      facultyTimeSlotMap := updF acc.facultyTimeSlotMap f
        (acc.facultyTimeSlotMap f ++ [c.lecture.timeSlot]) }
  let st3 := solveForFaculty lects prefs rest' (idx + 1) newUnhappy st2
  { st3 with
    schedule := mapDelete st3.schedule f,
    assignedLectureSlots := st3.assignedLectureSlots.erase c.lecture.id,
    facultyTimeSlotMap := updF st3.facultyTimeSlotMap f
      ((st3.facultyTimeSlotMap f).erase c.lecture.timeSlot) }

/-- The grouping `lectureSlotsByTime` built at lines 34–38.  It is
constructed by the source but never read afterwards. -/
def lectureSlotsByTime (lects : List LectureSlot) : List (String × List LectureSlot) :=
  lects.foldl
    (fun m l =>
      if m.any (fun p => p.1 == l.timeSlot) then
        m.map (fun p => if p.1 == l.timeSlot then (p.1, p.2 ++ [l]) else p)
      else m ++ [(l.timeSlot, [l])])
    []

/-- Swap of two list positions (used by the Fisher–Yates shuffle). -/
def listSwap (l : List String) (i j : Nat) : List String :=
  match l.get? i, l.get? j with
  | some a, some b => (l.set i b).set j a
  | _, _ => l

/-- `shuffleArray`: Fisher–Yates, with `Math.floor(Math.random() * (i + 1))`
modelled by an explicit random source `rng` taken modulo `i + 1`. -/
def shuffleArray (rng : Nat → Nat) (l : List String) : List String :=
  (List.range l.length).reverse.foldl
    (fun acc i => if 0 < i then listSwap acc i (rng i % (i + 1)) else acc) l

/-- Initial search state of one invocation of `solveFullSearchInWorker`:
empty schedule/sets, `progressState = { facultyIndex: 0, combinations: 0,
bestScore: initialBestScore }`, no messages posted yet. -/
def initState (initialBestScore : Option Int) : SearchState :=
  { schedule := []
    assignedLectureSlots := []
    facultyTimeSlotMap := fun _ => []
    facultyIndex := 0
    combinations := 0
    bestScore := initialBestScore
    msgs := [] }

/-- `solveFullSearchInWorker`: builds the (unused) `lectureSlotsByTime`
index, computes the shuffled faculty copy (line 104) — which is never
supplied to the recursion — and starts `solveForFaculty(0, 0)`.  The
returned state carries `finalCombinations = combinations` and
`finalScore = bestScore`. -/
def solveFullSearchInWorker (rng : Nat → Nat) (allFaculty : List String)
    (allLectureSlots : List LectureSlot) (prefs : String → List String)
    (initialBestScore : Option Int) : SearchState :=
  let _byTime := lectureSlotsByTime allLectureSlots
  let _shuffledFaculty := shuffleArray rng allFaculty
  solveForFaculty allLectureSlots prefs allFaculty 0 0 (initState initialBestScore)

/-- The full message trace of one successful run: the messages posted
during the search followed by the final
`{ type: 'complete', finalCombinations, finalScore }`. -/
def workerTrace (rng : Nat → Nat) (allFaculty : List String)
    (allLectureSlots : List LectureSlot) (prefs : String → List String)
    (initialBestScore : Option Int) : List Msg :=
  let st := solveFullSearchInWorker rng allFaculty allLectureSlots prefs initialBestScore
  st.msgs ++ [Msg.complete st.combinations st.bestScore]

/-- The wire shape of `event.data` in `self.onmessage`: each destructured
field may be missing (`undefined`). -/
structure WireRequest where
  allFaculty : Option (List String)
  allLectureSlots : Option (List LectureSlot)
  teacherAvailabilityMap : Option (List (String × List String))
  facultyPreferredSlots : Option (List (String × List String))
  initialBestScore : Option Int

/-- Reconstruction of the preference map from its transferred entry list
(`new Map(facultyPreferredSlots.map(([k, v]) => [k, new Set(v)]))`), read
back through `.get(faculty) || new Set()`: later duplicate keys win, a
missing key yields the empty set. -/
def reconstructPrefs (l : List (String × List String)) : String → List String :=
  fun f => ((l.reverse.find? (fun p => p.1 == f)).map Prod.snd).getD []

/-- `self.onmessage`: reconstructs the transferred maps, runs the search,
and posts `complete`; any exception thrown on the way (a missing
`facultyPreferredSlots` fails at `.map`, a missing `allLectureSlots` fails
at the `for…of` of lines 35–38, a missing `allFaculty` fails at the spread
on line 104) is caught and posted as an `error` message instead.  There is
no branch that treats a payload-less message as a cancellation request. -/
def workerOnMessage (rng : Nat → Nat) (req : WireRequest) : List Msg :=
  match req.facultyPreferredSlots with
  | none => [Msg.error "Cannot read properties of undefined (reading map)"]
  | some prefsList =>
    match req.allLectureSlots with
    | none => [Msg.error "allLectureSlots is not iterable"]
    | some lects =>
      match req.allFaculty with
      | none => [Msg.error "allFaculty is not iterable"]
      | some faculty =>
        workerTrace rng faculty lects (reconstructPrefs prefsList) req.initialBestScore

/-- A payload-less inbound message (`event.data` with no fields), the shape
the specification calls a cancellation request. -/
def noPayloadRequest : WireRequest :=
  { allFaculty := none
    allLectureSlots := none
    teacherAvailabilityMap := none
    facultyPreferredSlots := none
    initialBestScore := none }

/-! ## Independent brute-force reference (for the completeness claim) -/

/-- Scores of every valid complete assignment extending the given partial
state: for each faculty member in order, every lecture whose id is not yet
consumed and whose time slot is not yet consumed by that member is chosen
in turn, contributing `1` when the time slot is not preferred.  A plain
enumeration: no pruning, no ordering heuristic, no best-score state. -/
def completionScores (lects : List LectureSlot) (prefs : String → List String) :
    List String → List Nat → (String → List String) → List Nat
  | [], _, _ => [0]
  | f :: rest, assigned, tmap =>
    (lects.filter (fun l => !(assigned.contains l.id) && !((tmap f).contains l.timeSlot))).flatMap
      (fun l =>
        (completionScores lects prefs rest (assigned ++ [l.id])
            (updF tmap f (tmap f ++ [l.timeSlot]))).map
          (fun s => (if (prefs f).contains l.timeSlot then 0 else 1) + s))

/-- Minimum of a list of naturals, `none` on the empty list. -/
def listMin : List Nat → Option Nat
  | [] => none
  | a :: l =>
    match listMin l with
    | none => some a
    | some m => some (Nat.min a m)

/-- Brute-force reference: the minimum score over all valid complete
assignments, `none` when no complete assignment exists. -/
def bruteForceMin (allFaculty : List String) (lects : List LectureSlot)
    (prefs : String → List String) : Option Nat :=
  listMin (completionScores lects prefs allFaculty [] (fun _ => []))

/-! ## Trace and best-score bookkeeping for the temporal claims -/

/-- The scores of the `solutionUpdate` messages of a trace, in order. -/
def sScores (ms : List Msg) : List Nat :=
  ms.filterMap (fun m =>
    match m with
    | .solutionUpdate _ s => some s
    | _ => none)

/-- `chainB b l b'`: each score of `l` beats the bound current at its
emission (starting from `b`), each emission replaces the bound, and `b'`
is the bound left at the end. -/
def chainB : Option Int → List Nat → Option Int → Bool
  | b, [], b' => decide (b' = b)
  | b, s :: l, b' => !geU s b && chainB (some (s : Int)) l b'

/-- Strictly decreasing list of naturals, as a boolean. -/
def strictDec : List Nat → Bool
  | [] => true
  | [_] => true
  | a :: b :: l => decide (b < a) && strictDec (b :: l)

/-- The messages a call appended to the log. -/
def newMsgs (st st' : SearchState) : List Msg :=
  st'.msgs.drop st.msgs.length

/-- Combining a best score with the minimum of a batch of completion
scores, in JS comparison semantics (an `undefined` bound loses to any
number, an empty batch leaves the bound unchanged). -/
def combineMin (b : Option Int) (l : List Nat) : Option Int :=
  match listMin l with
  | none => b
  | some m =>
    match b with
    | none => some (m : Int)
    | some v => some (Min.min v (m : Int))

/-- Message classifiers. -/
def Msg.isComplete : Msg → Bool
  | .complete _ _ => true
  | _ => false

def Msg.isError : Msg → Bool
  | .error _ => true
  | _ => false

/-- Messages the search itself can post (progress and solution updates). -/
def isSearchMsg : Msg → Bool
  | .solutionUpdate _ _ => true
  | .progressUpdate _ _ _ => true
  | _ => false

/-- The state just before the extension loop: `progressState.facultyIndex`
updated, and the periodic `progressUpdate` posted when
`combinations % 1000 === 0`. -/
def preLoopState (idx : Nat) (f : String) (st : SearchState) : SearchState :=
  let st0 := { st with facultyIndex := idx }
  if st0.combinations % 1000 == 0 then
    { st0 with msgs := st0.msgs ++ [Msg.progressUpdate idx f st0.combinations] }
  else st0

/-! ## Unfolding equations for `solveForFaculty` -/

theorem solveForFaculty_nil (lects : List LectureSlot) (prefs : String → List String)
    (idx cu : Nat) (st : SearchState) :
    solveForFaculty lects prefs [] idx cu st =
      if geU cu st.bestScore then st
      else { st with facultyIndex := idx, bestScore := some (cu : Int),
                     msgs := st.msgs ++ [Msg.solutionUpdate st.schedule cu] } := rfl

theorem solveForFaculty_cons (lects : List LectureSlot) (prefs : String → List String)
    (f : String) (rest' : List String) (idx cu : Nat) (st : SearchState) :
    solveForFaculty lects prefs (f :: rest') idx cu st =
      if geU cu st.bestScore then st
      else
        (sortPossible (possibleCandidates lects prefs
            (preLoopState idx f st).assignedLectureSlots
            ((preLoopState idx f st).facultyTimeSlotMap f) f)).foldl
          (stepCand lects prefs rest' idx f cu) (preLoopState idx f st) := rfl

theorem preLoopState_assigned (idx : Nat) (f : String) (st : SearchState) :
    (preLoopState idx f st).assignedLectureSlots = st.assignedLectureSlots := by
  simp only [preLoopState]; split <;> rfl

theorem preLoopState_tmap (idx : Nat) (f : String) (st : SearchState) :
    (preLoopState idx f st).facultyTimeSlotMap = st.facultyTimeSlotMap := by
  simp only [preLoopState]; split <;> rfl

theorem preLoopState_schedule (idx : Nat) (f : String) (st : SearchState) :
    (preLoopState idx f st).schedule = st.schedule := by
  simp only [preLoopState]; split <;> rfl

theorem preLoopState_bestScore (idx : Nat) (f : String) (st : SearchState) :
    (preLoopState idx f st).bestScore = st.bestScore := by
  simp only [preLoopState]; split <;> rfl

theorem preLoopState_combinations (idx : Nat) (f : String) (st : SearchState) :
    (preLoopState idx f st).combinations = st.combinations := by
  simp only [preLoopState]; split <;> rfl

theorem preLoopState_msgs (idx : Nat) (f : String) (st : SearchState) :
    (preLoopState idx f st).msgs =
      st.msgs ++ (if st.combinations % 1000 == 0 then [Msg.progressUpdate idx f st.combinations] else []) := by
  simp only [preLoopState]; split <;> simp_all

/-! ## Basic lemmas: function-map update, erase, minima, chains -/

theorem updF_self (g : String → List String) (k : String) (v : List String) :
    updF g k v k = v := by simp [updF]

theorem updF_updF (g : String → List String) (k : String) (v w : List String) :
    updF (updF g k v) k w = updF g k w := by
  funext x; by_cases h : x = k <;> simp [updF, h]

theorem updF_cancel (g : String → List String) (k : String) :
    updF g k (g k) = g := by
  funext x; by_cases h : x = k
  · subst h; simp [updF]
  · simp [updF, h]

theorem erase_append_singleton {α : Type} [DecidableEq α] (l : List α) (a : α)
    (h : a ∉ l) : (l ++ [a]).erase a = l := by
  rw [List.erase_append_right _ h, List.erase_cons_head, List.append_nil]

/-- `ominN`: combine the optional minima of two batches. -/
def ominN : Option Nat → Option Nat → Option Nat
  | none, m => m
  | some a, none => some a
  | some a, some b => some (Nat.min a b)

theorem listMin_append (l₁ l₂ : List Nat) :
    listMin (l₁ ++ l₂) = ominN (listMin l₁) (listMin l₂) := by
  induction l₁ with
  | nil =>
    rw [List.nil_append]
    cases h : listMin l₂ <;> simp [ominN, listMin, h]
  | cons a l₁ ih =>
    rcases h₁ : listMin l₁ with _ | m₁ <;> rcases h₂ : listMin l₂ with _ | m₂ <;>
      simp [listMin, ih, h₁, h₂, ominN, Nat.min_assoc]

theorem listMin_mem {l : List Nat} {m : Nat} (h : listMin l = some m) : m ∈ l := by
  induction l generalizing m with
  | nil => simp [listMin] at h
  | cons a l ih =>
    rcases hl : listMin l with _ | m'
    · simp [listMin, hl] at h; simp [h]
    · simp [listMin, hl] at h
      rcases Nat.le_total a m' with hle | hle
      · simp [← h, Nat.min_eq_left hle]
      · simp [← h, Nat.min_eq_right hle, ih hl]

theorem listMin_eq_none {l : List Nat} : listMin l = none ↔ l = [] := by
  cases l with
  | nil => simp [listMin]
  | cons a l =>
    simp only [listMin]
    rcases listMin l <;> simp

theorem listMin_le {l : List Nat} {m : Nat} (h : listMin l = some m) :
    ∀ x ∈ l, m ≤ x := by
  induction l generalizing m with
  | nil => simp
  | cons a l ih =>
    have hstep :
        ∀ mm, listMin (a :: l) = some mm →
          (listMin l = none ∧ mm = a) ∨ (∃ m', listMin l = some m' ∧ mm = Nat.min a m') := by
      intro mm hmm
      rcases hl : listMin l with _ | m'
      · left
        refine ⟨rfl, ?_⟩
        simp only [listMin, hl, Option.some.injEq] at hmm
        exact hmm.symm
      · right
        refine ⟨m', rfl, ?_⟩
        simp only [listMin, hl, Option.some.injEq] at hmm
        exact hmm.symm
    intro x hx
    rcases hstep m h with ⟨hl, hma⟩ | ⟨m', hl, hmm⟩
    · rcases listMin_eq_none.mp hl
      have hxa : x = a := by simpa using hx
      rw [hma, hxa]
    · rcases List.mem_cons.mp hx with hxa | hx
      · rw [hmm, hxa]
        exact Nat.min_le_left _ _
      · rw [hmm]
        exact Nat.le_trans (Nat.min_le_right a m') (ih hl x hx)

theorem listMin_perm {l₁ l₂ : List Nat} (h : l₁.Perm l₂) : listMin l₁ = listMin l₂ := by
  induction h with
  | nil => rfl
  | cons a _ ih => simp only [listMin, ih]
  | swap a b l =>
    simp only [listMin]
    rcases listMin l with _ | m
    · simp [Nat.min_comm]
    · simp [← Nat.min_assoc, Nat.min_comm a b]
  | trans _ _ ih₁ ih₂ => exact ih₁.trans ih₂

theorem combineMin_of_ge (v : Int) (l : List Nat) (h : ∀ x ∈ l, v ≤ (x : Int)) :
    combineMin (some v) l = some v := by
  unfold combineMin
  rcases hm : listMin l with _ | m
  · rfl
  · have := h m (listMin_mem hm)
    simp [min_eq_left this]

theorem combineMin_append (b : Option Int) (l₁ l₂ : List Nat) :
    combineMin (combineMin b l₁) l₂ = combineMin b (l₁ ++ l₂) := by
  unfold combineMin
  rw [listMin_append]
  rcases h₁ : listMin l₁ with _ | m₁ <;> rcases h₂ : listMin l₂ with _ | m₂ <;>
    rcases b with _ | v <;> simp [ominN, Nat.cast_min, min_assoc]

theorem combineMin_perm (b : Option Int) {l₁ l₂ : List Nat} (h : l₁.Perm l₂) :
    combineMin b l₁ = combineMin b l₂ := by
  unfold combineMin
  rw [listMin_perm h]

/-! ## Chain lemmas -/

theorem chainB_append {b b₁ b₂ : Option Int} {l₁ l₂ : List Nat}
    (h₁ : chainB b l₁ b₁ = true) (h₂ : chainB b₁ l₂ b₂ = true) :
    chainB b (l₁ ++ l₂) b₂ = true := by
  induction l₁ generalizing b with
  | nil =>
    simp only [chainB, decide_eq_true_eq] at h₁
    subst h₁
    simpa using h₂
  | cons s l₁ ih =>
    simp only [chainB, Bool.and_eq_true] at h₁ ⊢
    exact ⟨h₁.1, ih h₁.2⟩

theorem chainB_geU_false {b b' : Option Int} {l : List Nat} (h : chainB b l b' = true) :
    ∀ s ∈ l, geU s b = false := by
  induction l generalizing b with
  | nil => simp
  | cons s l ih =>
    simp only [chainB, Bool.and_eq_true, Bool.not_eq_true'] at h
    obtain ⟨h1, h2⟩ := h
    intro x hx
    rcases List.mem_cons.mp hx with hxa | hx
    · exact hxa ▸ h1
    · have hx' := ih h2 x hx
      rcases b with _ | v
      · rfl
      · simp only [geU, decide_eq_false_iff_not, not_le] at h1 hx' ⊢
        exact lt_trans hx' h1

theorem chainB_strictDec {b b' : Option Int} {l : List Nat} (h : chainB b l b' = true) :
    strictDec l = true := by
  induction l generalizing b with
  | nil => rfl
  | cons s l ih =>
    simp only [chainB, Bool.and_eq_true] at h
    obtain ⟨h1, h2⟩ := h
    cases l with
    | nil => rfl
    | cons s' l' =>
      have hd := chainB_geU_false h2 s' (by simp)
      simp only [geU, decide_eq_false_iff_not, not_le] at hd
      have hd' : s' < s := by exact_mod_cast hd
      simp only [strictDec, Bool.and_eq_true, decide_eq_true_eq]
      exact ⟨hd', ih h2⟩

theorem chainB_cons_final {b b' : Option Int} {s : Nat} {l : List Nat}
    (h : chainB b (s :: l) b' = true) : ∃ m : Nat, b' = some (m : Int) ∧ m ≤ s := by
  induction l generalizing b s with
  | nil =>
    simp only [chainB, Bool.and_eq_true, decide_eq_true_eq] at h
    exact ⟨s, h.2, Nat.le_refl s⟩
  | cons s' l ih =>
    simp only [chainB, Bool.and_eq_true] at h
    obtain ⟨h1, h2⟩ := h
    have h2' : chainB (some (s : Int)) (s' :: l) b' = true := by
      simp only [chainB, Bool.and_eq_true]
      exact h2
    obtain ⟨m, hm, hms⟩ := ih h2'
    have hd : geU s' (some (s : Int)) = false := by
      simpa using h2.1
    simp only [geU, decide_eq_false_iff_not, not_le] at hd
    have : s' < s := by exact_mod_cast hd
    exact ⟨m, hm, Nat.le_trans hms (Nat.le_of_lt this)⟩

theorem chainB_cons_ne {b b' : Option Int} {s : Nat} {l : List Nat}
    (h : chainB b (s :: l) b' = true) : b' ≠ b := by
  obtain ⟨m, hm, hms⟩ := chainB_cons_final h
  have h1 : geU s b = false := chainB_geU_false h s (by simp)
  rcases b with _ | v
  · simp [hm]
  · simp only [geU, decide_eq_false_iff_not, not_le] at h1
    rw [hm]
    intro hc
    have : (m : Int) = v := by simpa using hc
    have hms' : (m : Int) ≤ (s : Int) := by exact_mod_cast hms
    omega

/-! ## Lemmas about message logs and candidates -/

theorem sScores_append (l₁ l₂ : List Msg) :
    sScores (l₁ ++ l₂) = sScores l₁ ++ sScores l₂ := by
  simp [sScores]

theorem sScores_progress (idx : Nat) (f : String) (n : Nat) :
    sScores [Msg.progressUpdate idx f n] = [] := rfl

theorem sortPossible_perm (cs : List Candidate) : (sortPossible cs).Perm cs := by
  simpa [sortPossible] using List.filter_append_perm (fun c => c.isHappy) cs

theorem mem_sortPossible {c : Candidate} {cs : List Candidate} :
    c ∈ sortPossible cs ↔ c ∈ cs :=
  (sortPossible_perm cs).mem_iff

theorem mem_possibleCandidates {c : Candidate} {lects : List LectureSlot}
    {prefs : String → List String} {assigned : List Nat} {times : List String}
    {f : String} (h : c ∈ possibleCandidates lects prefs assigned times f) :
    c.lecture ∈ lects ∧ assigned.contains c.lecture.id = false ∧
      times.contains c.lecture.timeSlot = false ∧
      c.isHappy = (prefs f).contains c.lecture.timeSlot := by
  simp only [possibleCandidates, List.mem_map, List.mem_filter] at h
  obtain ⟨l, ⟨hl, hcond⟩, rfl⟩ := h
  simp only [Bool.and_eq_true, Bool.not_eq_true'] at hcond
  exact ⟨hl, hcond.1, hcond.2, rfl⟩

theorem contains_false_not_mem {α : Type} [DecidableEq α] {l : List α} {a : α}
    (h : l.contains a = false) : a ∉ l := by
  simpa using h

/-! ## Frame: the extension loop restores the consumed-id set and the
per-faculty consumed-time-slot map -/

theorem stepCand_restore (lects : List LectureSlot) (prefs : String → List String)
    (rest' : List String) (idx : Nat) (f : String) (cu : Nat)
    (s : SearchState) (c : Candidate)
    (hA : s.assignedLectureSlots.contains c.lecture.id = false)
    (hT : (s.facultyTimeSlotMap f).contains c.lecture.timeSlot = false)
    (hrec : ∀ (idx2 cu2 : Nat) (st2 : SearchState),
      (solveForFaculty lects prefs rest' idx2 cu2 st2).assignedLectureSlots
          = st2.assignedLectureSlots ∧
        (solveForFaculty lects prefs rest' idx2 cu2 st2).facultyTimeSlotMap
          = st2.facultyTimeSlotMap) :
    (stepCand lects prefs rest' idx f cu s c).assignedLectureSlots
        = s.assignedLectureSlots ∧
      (stepCand lects prefs rest' idx f cu s c).facultyTimeSlotMap
        = s.facultyTimeSlotMap := by
  simp only [stepCand]
  constructor
  · rw [(hrec _ _ _).1]
    exact erase_append_singleton _ _ (contains_false_not_mem hA)
  · rw [(hrec _ _ _).2]
    show updF (updF s.facultyTimeSlotMap f (s.facultyTimeSlotMap f ++ [c.lecture.timeSlot])) f
        ((updF s.facultyTimeSlotMap f (s.facultyTimeSlotMap f ++ [c.lecture.timeSlot]) f).erase
          c.lecture.timeSlot) = s.facultyTimeSlotMap
    rw [updF_self, erase_append_singleton _ _ (contains_false_not_mem hT), updF_updF,
      updF_cancel]

theorem solveForFaculty_frame (lects : List LectureSlot) (prefs : String → List String) :
    ∀ (rest : List String) (idx cu : Nat) (st : SearchState),
      (solveForFaculty lects prefs rest idx cu st).assignedLectureSlots
          = st.assignedLectureSlots ∧
        (solveForFaculty lects prefs rest idx cu st).facultyTimeSlotMap
          = st.facultyTimeSlotMap := by
  intro rest
  induction rest with
  | nil =>
    intro idx cu st
    rw [solveForFaculty_nil]
    split
    · exact ⟨rfl, rfl⟩
    · exact ⟨rfl, rfl⟩
  | cons f rest' ih =>
    intro idx cu st
    rw [solveForFaculty_cons]
    split
    · exact ⟨rfl, rfl⟩
    · have loop : ∀ (cs : List Candidate) (s : SearchState),
          (∀ c ∈ cs, s.assignedLectureSlots.contains c.lecture.id = false ∧
            (s.facultyTimeSlotMap f).contains c.lecture.timeSlot = false) →
          ((cs.foldl (stepCand lects prefs rest' idx f cu) s).assignedLectureSlots
              = s.assignedLectureSlots ∧
            (cs.foldl (stepCand lects prefs rest' idx f cu) s).facultyTimeSlotMap
              = s.facultyTimeSlotMap) := by
        intro cs
        induction cs with
        | nil => intro s _; exact ⟨rfl, rfl⟩
        | cons c cs' ihc =>
          intro s hel
          obtain ⟨h1, h2⟩ := hel c (by simp)
          rw [List.foldl_cons]
          have hstep := stepCand_restore lects prefs rest' idx f cu s c h1 h2
            (fun idx2 cu2 st2 => ih idx2 cu2 st2)
          have htail := ihc (stepCand lects prefs rest' idx f cu s c)
            (by
              intro c' hc'
              rw [hstep.1, hstep.2]
              exact hel c' (by simp [hc']))
          rw [htail.1, htail.2, hstep.1, hstep.2]
          exact ⟨rfl, rfl⟩
      rw [← preLoopState_assigned idx f st, ← preLoopState_tmap idx f st]
      refine loop _ _ ?_
      intro c hc
      have hmem := mem_possibleCandidates (mem_sortPossible.mp hc)
      exact ⟨hmem.2.1, hmem.2.2.1⟩

/-- The state entered by one candidate attempt (the tentative addition of
lines 87–93). -/
def stepEnter (f : String) (s : SearchState) (c : Candidate) : SearchState :=
  { s with
    combinations := s.combinations + 1,
    schedule := mapSet s.schedule f ⟨c.lecture, c.isHappy⟩,
    assignedLectureSlots := s.assignedLectureSlots ++ [c.lecture.id],
    facultyTimeSlotMap := updF s.facultyTimeSlotMap f
      (s.facultyTimeSlotMap f ++ [c.lecture.timeSlot]) }

theorem stepCand_msgs (lects : List LectureSlot) (prefs : String → List String)
    (rest' : List String) (idx : Nat) (f : String) (cu : Nat)
    (s : SearchState) (c : Candidate) :
    (stepCand lects prefs rest' idx f cu s c).msgs =
      (solveForFaculty lects prefs rest' (idx + 1) (cu + (if c.isHappy then 0 else 1))
        (stepEnter f s c)).msgs := rfl

theorem stepCand_bestScore (lects : List LectureSlot) (prefs : String → List String)
    (rest' : List String) (idx : Nat) (f : String) (cu : Nat)
    (s : SearchState) (c : Candidate) :
    (stepCand lects prefs rest' idx f cu s c).bestScore =
      (solveForFaculty lects prefs rest' (idx + 1) (cu + (if c.isHappy then 0 else 1))
        (stepEnter f s c)).bestScore := rfl

/-- Master lemma: any call only appends to the message log, and the scores
of the appended `solutionUpdate` messages form a chain in which every
score strictly beats the bound current at its emission and replaces it. -/
theorem solveForFaculty_master (lects : List LectureSlot) (prefs : String → List String) :
    ∀ (rest : List String) (idx cu : Nat) (st : SearchState),
      ∃ Δ : List Msg,
        (solveForFaculty lects prefs rest idx cu st).msgs = st.msgs ++ Δ ∧
        chainB st.bestScore (sScores Δ)
          (solveForFaculty lects prefs rest idx cu st).bestScore = true := by
  intro rest
  induction rest with
  | nil =>
    intro idx cu st
    rw [solveForFaculty_nil]
    split
    · exact ⟨[], by simp, by simp [chainB]⟩
    · next h =>
      have hg : geU cu st.bestScore = false := by simpa using h
      exact ⟨[Msg.solutionUpdate st.schedule cu], rfl, by simp [chainB, sScores, hg]⟩
  | cons f rest' ih =>
    intro idx cu st
    rw [solveForFaculty_cons]
    split
    · exact ⟨[], by simp, by simp [chainB]⟩
    · have loop : ∀ (cs : List Candidate) (s : SearchState),
          ∃ Δ : List Msg,
            (cs.foldl (stepCand lects prefs rest' idx f cu) s).msgs = s.msgs ++ Δ ∧
            chainB s.bestScore (sScores Δ)
              (cs.foldl (stepCand lects prefs rest' idx f cu) s).bestScore = true := by
        intro cs
        induction cs with
        | nil => intro s; exact ⟨[], by simp, by simp [chainB]⟩
        | cons c cs' ihc =>
          intro s
          obtain ⟨Δ₁, hm₁, hc₁⟩ := ih (idx + 1) (cu + (if c.isHappy then 0 else 1))
            (stepEnter f s c)
          obtain ⟨Δ₂, hm₂, hc₂⟩ := ihc (stepCand lects prefs rest' idx f cu s c)
          refine ⟨Δ₁ ++ Δ₂, ?_, ?_⟩
          · rw [List.foldl_cons, hm₂, stepCand_msgs, hm₁]
            show (stepEnter f s c).msgs ++ Δ₁ ++ Δ₂ = s.msgs ++ (Δ₁ ++ Δ₂)
            simp [stepEnter]
          · rw [List.foldl_cons, sScores_append]
            have h1 : chainB s.bestScore (sScores Δ₁)
                (stepCand lects prefs rest' idx f cu s c).bestScore = true := by
              rw [stepCand_bestScore]
              exact hc₁
            exact chainB_append h1 hc₂
      obtain ⟨Δ, hm, hc⟩ := loop
        (sortPossible (possibleCandidates lects prefs
          (preLoopState idx f st).assignedLectureSlots
          ((preLoopState idx f st).facultyTimeSlotMap f) f))
        (preLoopState idx f st)
      refine ⟨(if st.combinations % 1000 == 0 then
          [Msg.progressUpdate idx f st.combinations] else []) ++ Δ, ?_, ?_⟩
      · rw [hm, preLoopState_msgs, List.append_assoc]
      · rw [sScores_append]
        have h0 : chainB st.bestScore
            (sScores (if st.combinations % 1000 == 0 then
              [Msg.progressUpdate idx f st.combinations] else []))
            (preLoopState idx f st).bestScore = true := by
          rw [preLoopState_bestScore]
          split <;> simp [chainB, sScores]
        exact chainB_append h0 hc

/-! ## The search computes the brute-force minimum -/

theorem combineMin_pruned {cu : Nat} {b : Option Int} (h : geU cu b = true)
    (l : List Nat) : combineMin b (l.map (fun x => cu + x)) = b := by
  rcases b with _ | v
  · simp [geU] at h
  · simp only [geU, decide_eq_true_eq, ge_iff_le] at h
    refine combineMin_of_ge v _ ?_
    intro x hx
    obtain ⟨y, _, rfl⟩ := List.mem_map.mp hx
    have hy : (cu : Int) ≤ ((cu + y : Nat) : Int) := by
      push_cast
      omega
    exact le_trans h hy

theorem solveForFaculty_minInv (lects : List LectureSlot) (prefs : String → List String) :
    ∀ (rest : List String) (idx cu : Nat) (st : SearchState),
      (solveForFaculty lects prefs rest idx cu st).bestScore =
        combineMin st.bestScore
          ((completionScores lects prefs rest st.assignedLectureSlots
              st.facultyTimeSlotMap).map (fun x => cu + x)) := by
  intro rest
  induction rest with
  | nil =>
    intro idx cu st
    rw [solveForFaculty_nil]
    split
    · next h => exact (combineMin_pruned h _).symm
    · next h =>
      have hg : geU cu st.bestScore = false := by simpa using h
      show some (cu : Int) = combineMin st.bestScore
        ((completionScores lects prefs [] st.assignedLectureSlots
            st.facultyTimeSlotMap).map (fun x => cu + x))
      rcases hb : st.bestScore with _ | v
      · simp [completionScores, combineMin, listMin]
      · rw [hb] at hg
        simp only [geU, decide_eq_false_iff_not, not_le] at hg
        have : Min.min v ((cu : Int) + 0) = (cu : Int) + 0 := by
          refine min_eq_right ?_
          omega
        simp [completionScores, combineMin, listMin, this]
        omega
  | cons f rest' ih =>
    intro idx cu st
    rw [solveForFaculty_cons]
    split
    · next h => exact (combineMin_pruned h _).symm
    · next h =>
      have loop : ∀ (cs : List Candidate) (s : SearchState),
          (∀ c ∈ cs, s.assignedLectureSlots.contains c.lecture.id = false ∧
            (s.facultyTimeSlotMap f).contains c.lecture.timeSlot = false) →
          (cs.foldl (stepCand lects prefs rest' idx f cu) s).bestScore =
            combineMin s.bestScore
              (cs.flatMap (fun c =>
                (completionScores lects prefs rest'
                    (s.assignedLectureSlots ++ [c.lecture.id])
                    (updF s.facultyTimeSlotMap f
                      (s.facultyTimeSlotMap f ++ [c.lecture.timeSlot]))).map
                  (fun x => (cu + (if c.isHappy then 0 else 1)) + x))) := by
        intro cs
        induction cs with
        | nil => intro s _; simp [combineMin, listMin]
        | cons c cs' ihc =>
          intro s hel
          obtain ⟨h1, h2⟩ := hel c (by simp)
          have hrestore := stepCand_restore lects prefs rest' idx f cu s c h1 h2
            (fun idx2 cu2 st2 => solveForFaculty_frame lects prefs rest' idx2 cu2 st2)
          have hstep : (stepCand lects prefs rest' idx f cu s c).bestScore =
              combineMin s.bestScore
                ((completionScores lects prefs rest'
                    (s.assignedLectureSlots ++ [c.lecture.id])
                    (updF s.facultyTimeSlotMap f
                      (s.facultyTimeSlotMap f ++ [c.lecture.timeSlot]))).map
                  (fun x => (cu + (if c.isHappy then 0 else 1)) + x)) := by
            rw [stepCand_bestScore]
            exact ih (idx + 1) (cu + (if c.isHappy then 0 else 1)) (stepEnter f s c)
          have htail := ihc (stepCand lects prefs rest' idx f cu s c) (by
            intro c' hc'
            rw [hrestore.1, hrestore.2]
            exact hel c' (by simp [hc']))
          rw [List.foldl_cons, htail]
          simp only [hrestore.1, hrestore.2]
          rw [hstep, combineMin_append, List.flatMap_cons]
      have happ := loop
        (sortPossible (possibleCandidates lects prefs
          (preLoopState idx f st).assignedLectureSlots
          ((preLoopState idx f st).facultyTimeSlotMap f) f))
        (preLoopState idx f st)
        (by
          intro c hc
          have hmem := mem_possibleCandidates (mem_sortPossible.mp hc)
          exact ⟨hmem.2.1, hmem.2.2.1⟩)
      rw [happ]
      simp only [preLoopState_assigned, preLoopState_tmap, preLoopState_bestScore]
      rw [combineMin_perm st.bestScore
        ((sortPossible_perm (possibleCandidates lects prefs st.assignedLectureSlots
          (st.facultyTimeSlotMap f) f)).flatMap_right _)]
      simp only [completionScores, possibleCandidates, List.flatMap_map, List.map_flatMap,
        List.map_map]
      refine congrArg _ (List.flatMap_congr ?_)
      intro l _
      refine List.map_congr_left ?_
      intro x _
      simp [Function.comp, Nat.add_assoc]

/-! ## Schedule restoration (valid when the processed faculty names are
distinct and not yet scheduled) -/

theorem stepCand_schedule (lects : List LectureSlot) (prefs : String → List String)
    (rest' : List String) (idx : Nat) (f : String) (cu : Nat)
    (s : SearchState) (c : Candidate) :
    (stepCand lects prefs rest' idx f cu s c).schedule =
      mapDelete (solveForFaculty lects prefs rest' (idx + 1)
        (cu + (if c.isHappy then 0 else 1)) (stepEnter f s c)).schedule f := rfl

theorem mapSet_append (m : List (String × ScheduleEntry)) (k : String) (v : ScheduleEntry)
    (h : m.any (fun p => p.1 == k) = false) : mapSet m k v = m ++ [(k, v)] := by
  simp [mapSet, h]

theorem mapDelete_append_self (m : List (String × ScheduleEntry)) (k : String)
    (v : ScheduleEntry) (h : m.any (fun p => p.1 == k) = false) :
    mapDelete (m ++ [(k, v)]) k = m := by
  simp only [mapDelete, List.filter_append]
  have hall : ∀ p ∈ m, (p.1 == k) = false := by
    intro p hp
    by_contra hc
    have : m.any (fun p => p.1 == k) = true := by
      refine List.any_eq_true.mpr ⟨p, hp, ?_⟩
      simpa using hc
    rw [this] at h
    exact Bool.true_eq_false.mp h
  have h1 : m.filter (fun p => p.1 != k) = m := by
    refine List.filter_eq_self.mpr ?_
    intro p hp
    simp [bne, hall p hp]
  have h2 : [(k, v)].filter (fun p => (p.1 != k)) = [] := by
    simp [bne]
  rw [h1, h2, List.append_nil]

theorem map_fst_any_eq_false {m : List (String × ScheduleEntry)} {P : List String}
    {f : String} (hm : m.map Prod.fst = P) (hf : f ∉ P) :
    m.any (fun p => p.1 == f) = false := by
  by_contra hc
  have : m.any (fun p => p.1 == f) = true := by
    cases hx : m.any (fun p => p.1 == f)
    · exact absurd hx hc
    · rfl
  obtain ⟨p, hp, hpk⟩ := List.any_eq_true.mp this
  have : p.1 ∈ P := hm ▸ List.mem_map_of_mem Prod.fst hp
  rw [show p.1 = f by simpa using hpk] at this
  exact hf this

theorem solveForFaculty_frame_schedule (lects : List LectureSlot)
    (prefs : String → List String) :
    ∀ (rest : List String) (idx cu : Nat) (st : SearchState),
      rest.Nodup →
      (∀ g ∈ rest, st.schedule.any (fun p => p.1 == g) = false) →
      (solveForFaculty lects prefs rest idx cu st).schedule = st.schedule := by
  intro rest
  induction rest with
  | nil =>
    intro idx cu st _ _
    rw [solveForFaculty_nil]
    split <;> rfl
  | cons f rest' ih =>
    intro idx cu st hnd hkeys
    rw [solveForFaculty_cons]
    split
    · rfl
    · have hfr : f ∉ rest' := (List.nodup_cons.mp hnd).1
      have hnd' : rest'.Nodup := (List.nodup_cons.mp hnd).2
      have loop : ∀ (cs : List Candidate) (s : SearchState),
          (∀ g ∈ f :: rest', s.schedule.any (fun p => p.1 == g) = false) →
          (cs.foldl (stepCand lects prefs rest' idx f cu) s).schedule = s.schedule := by
        intro cs
        induction cs with
        | nil => intro s _; rfl
        | cons c cs' ihc =>
          intro s hk
          have hkf : s.schedule.any (fun p => p.1 == f) = false := hk f (by simp)
          have hsched2 : (stepEnter f s c).schedule = s.schedule ++ [(f, ⟨c.lecture, c.isHappy⟩)] :=
            mapSet_append _ _ _ hkf
          have hrec : (solveForFaculty lects prefs rest' (idx + 1)
              (cu + (if c.isHappy then 0 else 1)) (stepEnter f s c)).schedule =
              (stepEnter f s c).schedule := by
            refine ih _ _ _ hnd' ?_
            intro g hg
            rw [hsched2]
            have hgf : (f == g) = false := by
              have : f ≠ g := fun hfg => hfr (hfg ▸ hg)
              simpa using this
            simp [List.any_append, hk g (by simp [hg]), hgf]
          have hstep : (stepCand lects prefs rest' idx f cu s c).schedule = s.schedule := by
            rw [stepCand_schedule, hrec, hsched2]
            exact mapDelete_append_self _ _ _ hkf
          rw [List.foldl_cons, ihc (stepCand lects prefs rest' idx f cu s c) (by
            intro g hg
            rw [hstep]
            exact hk g hg), hstep]
      rw [loop _ (preLoopState idx f st) (by
        intro g hg
        rw [preLoopState_schedule]
        exact hkeys g hg), preLoopState_schedule]

theorem stepCand_schedule_restore (lects : List LectureSlot) (prefs : String → List String)
    (rest' : List String) (idx : Nat) (f : String) (cu : Nat)
    (s : SearchState) (c : Candidate)
    (hany : s.schedule.any (fun p => p.1 == f) = false)
    (hnd : rest'.Nodup) (hfr : f ∉ rest')
    (hkeys : ∀ g ∈ rest', s.schedule.any (fun p => p.1 == g) = false) :
    (stepCand lects prefs rest' idx f cu s c).schedule = s.schedule := by
  have hsched2 : (stepEnter f s c).schedule = s.schedule ++ [(f, ⟨c.lecture, c.isHappy⟩)] :=
    mapSet_append _ _ _ hany
  rw [stepCand_schedule]
  rw [solveForFaculty_frame_schedule lects prefs rest' _ _ _ hnd (by
    intro g hg
    rw [hsched2]
    have hgf : (f == g) = false := by
      have : f ≠ g := fun hfg => hfr (hfg ▸ hg)
      simpa using this
    simp [List.any_append, hkeys g hg, hgf]), hsched2]
  exact mapDelete_append_self _ _ _ hany

/-! ## Validity of every emitted solution schedule -/

theorem solveForFaculty_schedValid (lects : List LectureSlot) (prefs : String → List String) :
    ∀ (rest : List String) (idx cu : Nat) (st : SearchState) (P : List String),
      st.schedule.map Prod.fst = P →
      (P ++ rest).Nodup →
      st.assignedLectureSlots = st.schedule.map (fun p => p.2.lecture.id) →
      st.assignedLectureSlots.Nodup →
      (∀ p ∈ st.schedule, p.2.isHappy = (prefs p.1).contains p.2.lecture.timeSlot) →
      ∀ m ∈ (solveForFaculty lects prefs rest idx cu st).msgs,
        m ∈ st.msgs ∨
        (∀ sched sc, m = Msg.solutionUpdate sched sc →
          sched.map Prod.fst = P ++ rest ∧
          (sched.map (fun p => p.2.lecture.id)).Nodup ∧
          (∀ p ∈ sched, p.2.isHappy = (prefs p.1).contains p.2.lecture.timeSlot)) := by
  intro rest
  induction rest with
  | nil =>
    intro idx cu st P hP hnd hpar hnodA hhap
    rw [solveForFaculty_nil]
    split
    · intro m hm; exact Or.inl hm
    · intro m hm
      rcases List.mem_append.mp hm with hm | hm
      · exact Or.inl hm
      · right
        intro sched sc heq
        have hm' : m = Msg.solutionUpdate st.schedule cu := by simpa using hm
        rw [hm'] at heq
        injection heq with e1 e2
        refine ⟨?_, ?_, ?_⟩
        · rw [← e1, List.append_nil]; exact hP
        · rw [← e1, ← hpar]; exact hnodA
        · rw [← e1]; exact hhap
  | cons f rest' ih =>
    intro idx cu st P hP hnd hpar hnodA hhap
    rw [solveForFaculty_cons]
    split
    · intro m hm; exact Or.inl hm
    · have hdis := List.disjoint_of_nodup_append hnd
      have hfP : f ∉ P := fun hfPmem => hdis hfPmem (by simp)
      have hcons : (f :: rest').Nodup := (List.nodup_append.mp hnd).2.1
      have hfr : f ∉ rest' := (List.nodup_cons.mp hcons).1
      have hnd' : rest'.Nodup := (List.nodup_cons.mp hcons).2
      have loop : ∀ (cs : List Candidate) (s : SearchState),
          s.schedule.map Prod.fst = P →
          s.assignedLectureSlots = s.schedule.map (fun p => p.2.lecture.id) →
          s.assignedLectureSlots.Nodup →
          (∀ p ∈ s.schedule, p.2.isHappy = (prefs p.1).contains p.2.lecture.timeSlot) →
          (∀ c ∈ cs, s.assignedLectureSlots.contains c.lecture.id = false ∧
            (s.facultyTimeSlotMap f).contains c.lecture.timeSlot = false ∧
            c.isHappy = (prefs f).contains c.lecture.timeSlot) →
          ∀ m ∈ (cs.foldl (stepCand lects prefs rest' idx f cu) s).msgs,
            m ∈ s.msgs ∨
            (∀ sched sc, m = Msg.solutionUpdate sched sc →
              sched.map Prod.fst = P ++ f :: rest' ∧
              (sched.map (fun p => p.2.lecture.id)).Nodup ∧
              (∀ p ∈ sched, p.2.isHappy = (prefs p.1).contains p.2.lecture.timeSlot)) := by
        intro cs
        induction cs with
        | nil => intro s _ _ _ _ _ m hm; exact Or.inl hm
        | cons c cs' ihc =>
          intro s hsP hspar hsnod hshap hel
          obtain ⟨hc1, hc2, hc3⟩ := hel c (by simp)
          have hkf : s.schedule.any (fun p => p.1 == f) = false := map_fst_any_eq_false hsP hfP
          have hsched2 : (stepEnter f s c).schedule =
              s.schedule ++ [(f, ⟨c.lecture, c.isHappy⟩)] := mapSet_append _ _ _ hkf
          have hP2 : (stepEnter f s c).schedule.map Prod.fst = P ++ [f] := by
            rw [hsched2]; simp [hsP]
          have hnd2 : ((P ++ [f]) ++ rest').Nodup := by
            simpa [List.append_assoc] using hnd
          have hpar2 : (stepEnter f s c).assignedLectureSlots =
              (stepEnter f s c).schedule.map (fun p => p.2.lecture.id) := by
            rw [hsched2]
            show s.assignedLectureSlots ++ [c.lecture.id] = _
            simp [hspar]
          have hnod2 : (stepEnter f s c).assignedLectureSlots.Nodup := by
            show (s.assignedLectureSlots ++ [c.lecture.id]).Nodup
            simp [List.nodup_append, hsnod, contains_false_not_mem hc1]
          have hhap2 : ∀ p ∈ (stepEnter f s c).schedule,
              p.2.isHappy = (prefs p.1).contains p.2.lecture.timeSlot := by
            rw [hsched2]
            intro p hp
            rcases List.mem_append.mp hp with hp | hp
            · exact hshap p hp
            · have hpe : p = (f, ⟨c.lecture, c.isHappy⟩) := by simpa using hp
              subst hpe
              simpa using hc3
          have hrec := ih (idx + 1) (cu + (if c.isHappy then 0 else 1)) (stepEnter f s c)
            (P ++ [f]) hP2 hnd2 hpar2 hnod2 hhap2
          have hstep : (stepCand lects prefs rest' idx f cu s c).schedule = s.schedule :=
            stepCand_schedule_restore lects prefs rest' idx f cu s c hkf hnd' hfr (by
              intro g hg
              refine map_fst_any_eq_false hsP ?_
              intro hgP
              exact hdis hgP (by simp [hg]))
          have hrestore := stepCand_restore lects prefs rest' idx f cu s c hc1 hc2
            (fun i2 c2 s2 => solveForFaculty_frame lects prefs rest' i2 c2 s2)
          have htail := ihc (stepCand lects prefs rest' idx f cu s c)
            (by rw [hstep]; exact hsP)
            (by rw [hstep, hrestore.1]; exact hspar)
            (by rw [hrestore.1]; exact hsnod)
            (by rw [hstep]; exact hshap)
            (by
              intro c' hc'
              rw [hrestore.1, hrestore.2]
              exact hel c' (by simp [hc']))
          intro m hm
          rw [List.foldl_cons] at hm
          rcases htail m hm with hm2 | hgood
          · rw [stepCand_msgs] at hm2
            rcases hrec m hm2 with hm3 | hgood2
            · exact Or.inl hm3
            · right
              intro sched sc heq
              obtain ⟨g1, g2, g3⟩ := hgood2 sched sc heq
              refine ⟨?_, g2, g3⟩
              rw [g1]
              simp [List.append_assoc]
          · exact Or.inr hgood
      intro m hm
      have happ := loop
        (sortPossible (possibleCandidates lects prefs
          (preLoopState idx f st).assignedLectureSlots
          ((preLoopState idx f st).facultyTimeSlotMap f) f))
        (preLoopState idx f st)
        (by rw [preLoopState_schedule]; exact hP)
        (by rw [preLoopState_assigned, preLoopState_schedule]; exact hpar)
        (by rw [preLoopState_assigned]; exact hnodA)
        (by rw [preLoopState_schedule]; exact hhap)
        (by
          intro c hc
          have hmem := mem_possibleCandidates (mem_sortPossible.mp hc)
          exact ⟨hmem.2.1, hmem.2.2.1, hmem.2.2.2⟩)
        m hm
      rcases happ with hm2 | hgood
      · rw [preLoopState_msgs] at hm2
        rcases List.mem_append.mp hm2 with hm3 | hm3
        · exact Or.inl hm3
        · right
          intro sched sc heq
          exfalso
          split at hm3
          · have hm4 : m = Msg.progressUpdate idx f st.combinations := by simpa using hm3
            rw [heq] at hm4
            exact absurd hm4 (by simp)
          · simp at hm3
      · exact Or.inr hgood

/-! ## The search posts only progress and solution messages -/

theorem solveForFaculty_searchMsgs (lects : List LectureSlot) (prefs : String → List String) :
    ∀ (rest : List String) (idx cu : Nat) (st : SearchState),
      st.msgs.all isSearchMsg = true →
      (solveForFaculty lects prefs rest idx cu st).msgs.all isSearchMsg = true := by
  intro rest
  induction rest with
  | nil =>
    intro idx cu st hall
    rw [solveForFaculty_nil]
    split
    · exact hall
    · show (st.msgs ++ [Msg.solutionUpdate st.schedule cu]).all isSearchMsg = true
      simp [List.all_append, hall, isSearchMsg]
  | cons f rest' ih =>
    intro idx cu st hall
    rw [solveForFaculty_cons]
    split
    · exact hall
    · have loop : ∀ (cs : List Candidate) (s : SearchState),
          s.msgs.all isSearchMsg = true →
          (cs.foldl (stepCand lects prefs rest' idx f cu) s).msgs.all isSearchMsg = true := by
        intro cs
        induction cs with
        | nil => intro s hs; exact hs
        | cons c cs' ihc =>
          intro s hs
          rw [List.foldl_cons]
          refine ihc _ ?_
          rw [stepCand_msgs]
          exact ih _ _ _ hs
      refine loop _ _ ?_
      rw [preLoopState_msgs]
      split <;> simp [List.all_append, hall, isSearchMsg]

theorem completionScores_le (lects : List LectureSlot) (prefs : String → List String) :
    ∀ (rest : List String) (A : List Nat) (T : String → List String) (x : Nat),
      x ∈ completionScores lects prefs rest A T → x ≤ rest.length := by
  intro rest
  induction rest with
  | nil =>
    intro A T x hx
    simp [completionScores] at hx
    omega
  | cons f rest' ih =>
    intro A T x hx
    simp only [completionScores, List.mem_flatMap, List.mem_map] at hx
    obtain ⟨l, hl, y, hy, rfl⟩ := hx
    have hyle := ih _ _ y hy
    have hc : (if (prefs f).contains l.timeSlot then 0 else 1) ≤ 1 := by
      split <;> omega
    simp only [List.length_cons]
    omega

/-! ## Claim theorems -/

/-- C1: if the search is started with `initialBestScore = faculty-count + 1`
(an unbeatable bound), `solveFullSearchInWorker` returns a `finalScore`
equal to the true minimum number of unpreferred assignments over all valid
complete assignments, as computed by the independent brute-force reference
`bruteForceMin`. -/
theorem solve_finds_bruteforce_minimum (rng : Nat → Nat) (allFaculty : List String)
    (lects : List LectureSlot) (prefs : String → List String) (m : Nat)
    (h : bruteForceMin allFaculty lects prefs = some m) :
    (solveFullSearchInWorker rng allFaculty lects prefs
        (some ((allFaculty.length : Int) + 1))).bestScore = some (m : Int) := by
  have hmain := solveForFaculty_minInv lects prefs allFaculty 0 0
    (initState (some ((allFaculty.length : Int) + 1)))
  show (solveForFaculty lects prefs allFaculty 0 0
      (initState (some ((allFaculty.length : Int) + 1)))).bestScore = some (m : Int)
  rw [hmain]
  simp only [initState]
  have hzero : (completionScores lects prefs allFaculty [] (fun _ => [])).map
      (fun x => 0 + x) = completionScores lects prefs allFaculty [] (fun _ => []) := by
    simp
  rw [hzero]
  rw [bruteForceMin] at h
  unfold combineMin
  rw [h]
  have hmem := listMin_mem h
  have hle : m ≤ allFaculty.length :=
    completionScores_le lects prefs allFaculty [] (fun _ => []) m hmem
  have hmin : Min.min ((allFaculty.length : Int) + 1) (m : Int) = (m : Int) := by
    refine min_eq_right ?_
    omega
  show some (Min.min ((allFaculty.length : Int) + 1) (m : Int)) = some ((m : Nat) : Int)
  rw [hmin]

/-- Witness for C1 at the specification's concrete scenario. -/
theorem solve_finds_bruteforce_minimum_witness :
    bruteForceMin ["A", "B"] [⟨1, "9am"⟩, ⟨2, "9am"⟩, ⟨3, "10am"⟩]
        (fun f => if f = "A" then ["10am"] else []) = some 1 ∧
    (solveFullSearchInWorker (fun _ => 0) ["A", "B"]
        [⟨1, "9am"⟩, ⟨2, "9am"⟩, ⟨3, "10am"⟩]
        (fun f => if f = "A" then ["10am"] else [])
        (some (((["A", "B"] : List String).length : Int) + 1))).bestScore = some ((1 : Nat) : Int) :=
  ⟨by decide, solve_finds_bruteforce_minimum (fun _ => 0) ["A", "B"]
    [⟨1, "9am"⟩, ⟨2, "9am"⟩, ⟨3, "10am"⟩]
    (fun f => if f = "A" then ["10am"] else []) 1 (by decide)⟩

/-- C2: in every `solutionUpdate` message of a run, each faculty member of
the input list appears exactly once as a key of the transferred schedule
(the key list equals the faculty list), no lecture id appears twice, and
each entry's `isHappy` equals membership of the lecture's time slot in that
faculty member's preference set. -/
theorem solutionUpdate_schedule_valid (rng : Nat → Nat) (allFaculty : List String)
    (lects : List LectureSlot) (prefs : String → List String) (i : Option Int)
    (hnd : allFaculty.Nodup) (sched : List (String × ScheduleEntry)) (sc : Nat)
    (hmem : Msg.solutionUpdate sched sc ∈
      (solveFullSearchInWorker rng allFaculty lects prefs i).msgs) :
    sched.map Prod.fst = allFaculty ∧
    (sched.map (fun p => p.2.lecture.id)).Nodup ∧
    sched.all (fun p => p.2.isHappy == (prefs p.1).contains p.2.lecture.timeSlot) = true := by
  have h := solveForFaculty_schedValid lects prefs allFaculty 0 0 (initState i) []
    (by simp [initState]) (by simpa using hnd) (by simp [initState]) (by simp [initState])
    (by simp [initState]) (Msg.solutionUpdate sched sc) hmem
  rcases h with h | h
  · simp [initState] at h
  · obtain ⟨g1, g2, g3⟩ := h sched sc rfl
    refine ⟨by simpa using g1, g2, ?_⟩
    rw [List.all_eq_true]
    intro p hp
    simpa using g3 p hp

/-- Witness for C2 at the specification's concrete scenario. -/
theorem solutionUpdate_schedule_valid_witness :
    (["A", "B"] : List String).Nodup ∧
    Msg.solutionUpdate [("A", ⟨⟨3, "10am"⟩, true⟩), ("B", ⟨⟨1, "9am"⟩, false⟩)] 1 ∈
      (solveFullSearchInWorker (fun _ => 0) ["A", "B"]
        [⟨1, "9am"⟩, ⟨2, "9am"⟩, ⟨3, "10am"⟩]
        (fun f => if f = "A" then ["10am"] else []) (some 2)).msgs ∧
    ([("A", (⟨⟨3, "10am"⟩, true⟩ : ScheduleEntry)),
        ("B", ⟨⟨1, "9am"⟩, false⟩)].map Prod.fst = ["A", "B"] ∧
      ([("A", (⟨⟨3, "10am"⟩, true⟩ : ScheduleEntry)),
          ("B", ⟨⟨1, "9am"⟩, false⟩)].map (fun p => p.2.lecture.id)).Nodup ∧
      [("A", (⟨⟨3, "10am"⟩, true⟩ : ScheduleEntry)), ("B", ⟨⟨1, "9am"⟩, false⟩)].all
        (fun p => p.2.isHappy ==
          ((fun f => if f = "A" then ["10am"] else []) p.1).contains p.2.lecture.timeSlot)
        = true) :=
  ⟨by decide, by decide,
    solutionUpdate_schedule_valid (fun _ => 0) ["A", "B"]
      [⟨1, "9am"⟩, ⟨2, "9am"⟩, ⟨3, "10am"⟩]
      (fun f => if f = "A" then ["10am"] else []) (some 2) (by decide)
      [("A", ⟨⟨3, "10am"⟩, true⟩), ("B", ⟨⟨1, "9am"⟩, false⟩)] 1 (by decide)⟩

/-- C3: within a run, the scores of successive `solutionUpdate` messages
are strictly decreasing, every emitted score is strictly below the
caller-supplied `initialBestScore`, and the `complete` message is the
final message of the run's trace. -/
theorem solution_scores_monotone_and_complete_last (rng : Nat → Nat)
    (allFaculty : List String) (lects : List LectureSlot)
    (prefs : String → List String) (i : Int) :
    strictDec (sScores (solveFullSearchInWorker rng allFaculty lects prefs (some i)).msgs)
        = true ∧
    (sScores (solveFullSearchInWorker rng allFaculty lects prefs (some i)).msgs).all
        (fun s => decide ((s : Int) < i)) = true ∧
    workerTrace rng allFaculty lects prefs (some i) =
      (solveFullSearchInWorker rng allFaculty lects prefs (some i)).msgs ++
        [Msg.complete
          (solveFullSearchInWorker rng allFaculty lects prefs (some i)).combinations
          (solveFullSearchInWorker rng allFaculty lects prefs (some i)).bestScore] := by
  obtain ⟨Δ, hm, hc⟩ := solveForFaculty_master lects prefs allFaculty 0 0 (initState (some i))
  have hΔ : (solveFullSearchInWorker rng allFaculty lects prefs (some i)).msgs = Δ := by
    show (solveForFaculty lects prefs allFaculty 0 0 (initState (some i))).msgs = Δ
    rw [hm]
    rfl
  refine ⟨?_, ?_, rfl⟩
  · rw [hΔ]
    exact chainB_strictDec hc
  · rw [hΔ, List.all_eq_true]
    intro s hs
    have h3 : geU s (some i) = false := chainB_geU_false hc s hs
    simp only [geU, decide_eq_false_iff_not, not_le] at h3
    simpa using h3

/-- C4: every base-case recording happens with a running score strictly
below the bound then in force (the chain condition), and the best score is
replaced if and only if such a recording happened — it is never mutated on
any other occasion. -/
theorem bestScore_replaced_iff_strict_improvement (lects : List LectureSlot)
    (prefs : String → List String) (rest : List String) (idx cu : Nat) (st : SearchState) :
    (solveForFaculty lects prefs rest idx cu st).msgs =
      st.msgs ++ newMsgs st (solveForFaculty lects prefs rest idx cu st) ∧
    chainB st.bestScore (sScores (newMsgs st (solveForFaculty lects prefs rest idx cu st)))
      (solveForFaculty lects prefs rest idx cu st).bestScore = true ∧
    ((solveForFaculty lects prefs rest idx cu st).bestScore = st.bestScore ↔
      sScores (newMsgs st (solveForFaculty lects prefs rest idx cu st)) = []) := by
  obtain ⟨Δ, hm, hc⟩ := solveForFaculty_master lects prefs rest idx cu st
  have hnew : newMsgs st (solveForFaculty lects prefs rest idx cu st) = Δ := by
    rw [newMsgs, hm, List.drop_left]
  rw [hnew]
  refine ⟨hm, hc, ?_⟩
  constructor
  · intro hb
    cases hsc : sScores Δ with
    | nil => rfl
    | cons s l =>
      rw [hsc] at hc
      exact absurd hb (chainB_cons_ne hc)
  · intro hsc
    rw [hsc] at hc
    simpa [chainB] using hc

/-- C5 counterexample: when the faculty member at the current depth already
has a schedule entry on entry to `solveForFaculty` — the situation at the
deeper occurrence when the faculty list repeats a name, e.g.
`["A", "A"]` — the tentative `schedule.set` overwrites that entry and the
backtracking `schedule.delete` removes it outright, so after the call the
schedule map differs from its state on entry: the undo is not a perfect
inverse on every reachable state. -/
theorem undo_not_restoring_schedule_counterexample :
    (solveForFaculty [⟨1, "9am"⟩] (fun _ => []) ["A"] 0 0
        { schedule := [("A", ⟨⟨2, "10am"⟩, true⟩)], assignedLectureSlots := [2],
          facultyTimeSlotMap := fun _ => [], facultyIndex := 0, combinations := 0,
          bestScore := some 5, msgs := [] }).schedule ≠
      [("A", ⟨⟨2, "10am"⟩, true⟩)] := by decide

/-- C5 (amended): provided the remaining faculty names are pairwise
distinct and none is already a key of the schedule — true throughout any
run whose faculty list has no repeated name — every tentative addition is
undone before the next candidate or return: after `solveForFaculty`
returns, the schedule map, the assigned-lecture-id set and the per-faculty
consumed-time-slot map are identical to their state on entry.  (The
embedded search raises no exceptions, so the straight-line undo after the
recursive call runs on every path; the source has no guaranteed-release
construct around it.) -/
theorem backtrack_restores_state (lects : List LectureSlot) (prefs : String → List String)
    (rest : List String) (idx cu : Nat) (st : SearchState)
    (hnd : rest.Nodup)
    (hkeys : rest.all (fun g => !(st.schedule.any (fun p => p.1 == g))) = true) :
    (solveForFaculty lects prefs rest idx cu st).schedule = st.schedule ∧
    (solveForFaculty lects prefs rest idx cu st).assignedLectureSlots
        = st.assignedLectureSlots ∧
    (solveForFaculty lects prefs rest idx cu st).facultyTimeSlotMap
        = st.facultyTimeSlotMap := by
  have hkeys' : ∀ g ∈ rest, st.schedule.any (fun p => p.1 == g) = false := by
    intro g hg
    have := List.all_eq_true.mp hkeys g hg
    simpa using this
  exact ⟨solveForFaculty_frame_schedule lects prefs rest idx cu st hnd hkeys',
    (solveForFaculty_frame lects prefs rest idx cu st).1,
    (solveForFaculty_frame lects prefs rest idx cu st).2⟩

/-- Witness for the amended C5 on a concrete state. -/
theorem backtrack_restores_state_witness :
    (["A"] : List String).Nodup ∧
    ((["A"] : List String).all
      (fun g => !((initState (some 2)).schedule.any (fun p => p.1 == g))) = true) ∧
    ((solveForFaculty [⟨1, "9am"⟩] (fun _ => []) ["A"] 0 0 (initState (some 2))).schedule
        = (initState (some 2)).schedule ∧
      (solveForFaculty [⟨1, "9am"⟩] (fun _ => []) ["A"] 0 0
          (initState (some 2))).assignedLectureSlots
        = (initState (some 2)).assignedLectureSlots ∧
      (solveForFaculty [⟨1, "9am"⟩] (fun _ => []) ["A"] 0 0
          (initState (some 2))).facultyTimeSlotMap
        = (initState (some 2)).facultyTimeSlotMap) :=
  ⟨by decide, by decide,
    backtrack_restores_state [⟨1, "9am"⟩] (fun _ => []) ["A"] 0 0 (initState (some 2))
      (by decide) (by decide)⟩

/-- C6 counterexample: the worker's reply to the payload-less inbound
message (the specification's cancellation request) contains no completion
message at all — it is a single error message, emitted because input
reconstruction throws; no mechanism makes the engine cease exploration. -/
theorem cancellation_yields_error_counterexample :
    (workerOnMessage (fun _ => 0) noPayloadRequest).all (fun m => !(Msg.isComplete m))
        = true ∧
    (workerOnMessage (fun _ => 0) noPayloadRequest).all Msg.isError = true ∧
    workerOnMessage (fun _ => 0) noPayloadRequest ≠ [] :=
  ⟨by decide, by decide, by decide⟩

/-- C6 (amended): the worker implements no cancellation: a payload-less
inbound message makes the handler throw while reconstructing
`facultyPreferredSlots` and post a single error message instead of any
completion; the search itself takes no cancellation input — it is a pure
function of the start request. -/
theorem no_payload_message_gives_error (rng : Nat → Nat) :
    workerOnMessage rng noPayloadRequest =
      [Msg.error "Cannot read properties of undefined (reading map)"] := rfl

/-- C7 counterexample: a start request whose lecture list repeats id 1 is
not rejected: the reply contains no error message, the search runs (2
candidate attempts), posts a solution and ends with completion. -/
theorem malformed_input_searched_counterexample :
    workerOnMessage (fun _ => 0)
        { allFaculty := some ["A"], allLectureSlots := some [⟨1, "9am"⟩, ⟨1, "9am"⟩],
          teacherAvailabilityMap := none, facultyPreferredSlots := some [],
          initialBestScore := some 2 } =
      [Msg.progressUpdate 0 "A" 0,
        Msg.solutionUpdate [("A", ⟨⟨1, "9am"⟩, false⟩)] 1,
        Msg.complete 2 (some 1)] := by decide

/-- C7 (amended): the worker performs no input validation: every request
whose destructured fields are present is searched as-is — malformed
content such as duplicate lecture ids included — and its trace is the
search messages (progress and solution updates only) followed by the
completion message; an error message arises only when a missing field
makes the reconstruction step throw. -/
theorem search_runs_without_validation (rng : Nat → Nat) (allFaculty : List String)
    (lects : List LectureSlot) (tam : Option (List (String × List String)))
    (prefsList : List (String × List String)) (i : Option Int) :
    workerOnMessage rng
        { allFaculty := some allFaculty, allLectureSlots := some lects,
          teacherAvailabilityMap := tam, facultyPreferredSlots := some prefsList,
          initialBestScore := i } =
      (solveFullSearchInWorker rng allFaculty lects (reconstructPrefs prefsList) i).msgs ++
        [Msg.complete
          (solveFullSearchInWorker rng allFaculty lects
            (reconstructPrefs prefsList) i).combinations
          (solveFullSearchInWorker rng allFaculty lects
            (reconstructPrefs prefsList) i).bestScore] ∧
    (solveFullSearchInWorker rng allFaculty lects
        (reconstructPrefs prefsList) i).msgs.all isSearchMsg = true :=
  ⟨rfl, solveForFaculty_searchMsgs lects (reconstructPrefs prefsList) allFaculty 0 0
    (initState i) rfl⟩

/-- C8: when no complete assignment scores strictly below the supplied
bound, the run terminates normally: `finalScore` is the original
`initialBestScore`, no `solutionUpdate` is emitted, and the trace still
ends with the completion message carrying that bound. -/
theorem no_improvement_reports_initial_bound (rng : Nat → Nat) (allFaculty : List String)
    (lects : List LectureSlot) (prefs : String → List String) (i : Int)
    (h : (completionScores lects prefs allFaculty [] (fun _ => [])).all
      (fun s => decide (i ≤ (s : Int))) = true) :
    (solveFullSearchInWorker rng allFaculty lects prefs (some i)).bestScore = some i ∧
    sScores (solveFullSearchInWorker rng allFaculty lects prefs (some i)).msgs = [] ∧
    workerTrace rng allFaculty lects prefs (some i) =
      (solveFullSearchInWorker rng allFaculty lects prefs (some i)).msgs ++
        [Msg.complete
          (solveFullSearchInWorker rng allFaculty lects prefs (some i)).combinations
          (some i)] := by
  have hbest : (solveFullSearchInWorker rng allFaculty lects prefs (some i)).bestScore
      = some i := by
    have hmain := solveForFaculty_minInv lects prefs allFaculty 0 0 (initState (some i))
    show (solveForFaculty lects prefs allFaculty 0 0 (initState (some i))).bestScore = some i
    rw [hmain]
    simp only [initState]
    have hzero : (completionScores lects prefs allFaculty [] (fun _ => [])).map
        (fun x => 0 + x) = completionScores lects prefs allFaculty [] (fun _ => []) := by
      simp
    rw [hzero]
    unfold combineMin
    cases hlm : listMin (completionScores lects prefs allFaculty [] (fun _ => [])) with
    | none => rfl
    | some m =>
      have hmem := listMin_mem hlm
      have hge := List.all_eq_true.mp h _ hmem
      simp only [decide_eq_true_eq] at hge
      show some (Min.min i (m : Int)) = some i
      rw [min_eq_left hge]
  refine ⟨hbest, ?_, ?_⟩
  · obtain ⟨Δ, hm, hc⟩ := solveForFaculty_master lects prefs allFaculty 0 0
      (initState (some i))
    have hΔ : (solveFullSearchInWorker rng allFaculty lects prefs (some i)).msgs = Δ := by
      show (solveForFaculty lects prefs allFaculty 0 0 (initState (some i))).msgs = Δ
      rw [hm]
      rfl
    rw [hΔ]
    cases hsc : sScores Δ with
    | nil => rfl
    | cons s l =>
      exfalso
      rw [hsc] at hc
      exact chainB_cons_ne hc hbest
  · show (solveFullSearchInWorker rng allFaculty lects prefs (some i)).msgs ++
        [Msg.complete
          (solveFullSearchInWorker rng allFaculty lects prefs (some i)).combinations
          (solveFullSearchInWorker rng allFaculty lects prefs (some i)).bestScore] = _
    rw [hbest]

/-- Witness for C8 at the specification's no-improvement scenario. -/
theorem no_improvement_reports_initial_bound_witness :
    ((completionScores [⟨1, "9am"⟩, ⟨2, "9am"⟩, ⟨3, "10am"⟩]
        (fun f => if f = "A" then ["10am"] else []) ["A", "B"] [] (fun _ => [])).all
      (fun s => decide ((1 : Int) ≤ (s : Int))) = true) ∧
    (solveFullSearchInWorker (fun _ => 0) ["A", "B"] [⟨1, "9am"⟩, ⟨2, "9am"⟩, ⟨3, "10am"⟩]
        (fun f => if f = "A" then ["10am"] else []) (some 1)).bestScore = some 1 ∧
    sScores (solveFullSearchInWorker (fun _ => 0) ["A", "B"]
        [⟨1, "9am"⟩, ⟨2, "9am"⟩, ⟨3, "10am"⟩]
        (fun f => if f = "A" then ["10am"] else []) (some 1)).msgs = [] :=
  ⟨by decide,
    (no_improvement_reports_initial_bound (fun _ => 0) ["A", "B"]
      [⟨1, "9am"⟩, ⟨2, "9am"⟩, ⟨3, "10am"⟩]
      (fun f => if f = "A" then ["10am"] else []) 1 (by decide)).1,
    (no_improvement_reports_initial_bound (fun _ => 0) ["A", "B"]
      [⟨1, "9am"⟩, ⟨2, "9am"⟩, ⟨3, "10am"⟩]
      (fun f => if f = "A" then ["10am"] else []) 1 (by decide)).2.1⟩

/-- C9: the run is a pure function of the start request, independent of
the random source: the shuffled faculty copy is computed but never
supplied to the recursion, which is started on the input faculty list. -/
theorem search_independent_of_rng (rng₁ rng₂ : Nat → Nat) (allFaculty : List String)
    (lects : List LectureSlot) (prefs : String → List String) (i : Option Int) :
    solveFullSearchInWorker rng₁ allFaculty lects prefs i =
      solveFullSearchInWorker rng₂ allFaculty lects prefs i ∧
    solveFullSearchInWorker rng₁ allFaculty lects prefs i =
      solveForFaculty lects prefs allFaculty 0 0 (initState i) :=
  ⟨rfl, rfl⟩

/-- C10: with a non-positive initial bound and a non-empty faculty list,
the root call is pruned at once: no candidate attempt is made
(`finalCombinations = 0`), no message is posted, and `finalScore` is the
supplied bound. -/
theorem nonpositive_bound_prunes_root (rng : Nat → Nat) (allFaculty : List String)
    (lects : List LectureSlot) (prefs : String → List String) (i : Int)
    (hne : allFaculty ≠ []) (hi : i ≤ 0) :
    (solveFullSearchInWorker rng allFaculty lects prefs (some i)).combinations = 0 ∧
    (solveFullSearchInWorker rng allFaculty lects prefs (some i)).msgs = [] ∧
    (solveFullSearchInWorker rng allFaculty lects prefs (some i)).bestScore = some i := by
  cases allFaculty with
  | nil => exact absurd rfl hne
  | cons g rest =>
    have hg : geU 0 (some i) = true := by
      simp only [geU, decide_eq_true_eq]
      omega
    have hrun : solveFullSearchInWorker rng (g :: rest) lects prefs (some i)
        = initState (some i) := by
      show solveForFaculty lects prefs (g :: rest) 0 0 (initState (some i))
          = initState (some i)
      rw [solveForFaculty_cons]
      simp only [show geU 0 (initState (some i)).bestScore = true from hg, if_true]
    rw [hrun]
    exact ⟨rfl, rfl, rfl⟩

/-- Witness for C10. -/
theorem nonpositive_bound_prunes_root_witness :
    ((["A"] : List String) ≠ []) ∧ ((0 : Int) ≤ 0) ∧
    ((solveFullSearchInWorker (fun _ => 0) ["A"]
        [⟨1, "9am"⟩, ⟨2, "9am"⟩, ⟨3, "10am"⟩]
        (fun f => if f = "A" then ["10am"] else []) (some 0)).combinations = 0 ∧
      (solveFullSearchInWorker (fun _ => 0) ["A"]
        [⟨1, "9am"⟩, ⟨2, "9am"⟩, ⟨3, "10am"⟩]
        (fun f => if f = "A" then ["10am"] else []) (some 0)).msgs = [] ∧
      (solveFullSearchInWorker (fun _ => 0) ["A"]
        [⟨1, "9am"⟩, ⟨2, "9am"⟩, ⟨3, "10am"⟩]
        (fun f => if f = "A" then ["10am"] else []) (some 0)).bestScore = some 0) :=
  ⟨by decide, by decide,
    nonpositive_bound_prunes_root (fun _ => 0) ["A"]
      [⟨1, "9am"⟩, ⟨2, "9am"⟩, ⟨3, "10am"⟩]
      (fun f => if f = "A" then ["10am"] else []) 0 (by decide) (by decide)⟩
